import Mathlib

/-!
Shallow embedding of the free-room availability service (`src/main.rs`).

Timestamps are modelled as `Int` (the Rust code uses `i64` second
timestamps; all arithmetic in the relevant code paths is far from the
64-bit boundaries, and no wrap-around is exercised by any claim).
Calendar dates are modelled as integer day numbers.

A Rust `HashSet<(i64, i64)>` of busy slots is modelled as a duplicate-free
list together with a membership-checking insert; the list order stands for
the unspecified iteration order of the hash set.  The catalog
`HashMap<String, Room>` is modelled as an association list with
first-match lookup.
-/

namespace FreeRoom

/-- `const START_WEEK_OFFSET: i64 = 2` from `main.rs`. -/
def START_WEEK_OFFSET : Int := 2

/-- `const END_WEEK_OFFSET: i64 = 8` from `main.rs`. -/
def END_WEEK_OFFSET : Int := 8

/-- The `Room` struct from `main.rs`: a name, the busy `slots`
(`HashSet<(i64, i64)>`, modelled as a list standing for one enumeration
of the set) and the cached `availability` vector. -/
structure Room where
  name : String
  slots : List (Int × Int)
  availability : List (Int × Int)
deriving DecidableEq, Repr

/-- `Room::new` from `main.rs`. -/
def Room.new (name : String) : Room :=
  { name := name, slots := [], availability := [] }

/-- `HashSet::insert`: a no-op when the element is already present. -/
def insertSlot (s : Int × Int) (l : List (Int × Int)) : List (Int × Int) :=
  if s ∈ l then l else l ++ [s]

/-- One step of the sweep loop body of `Room::compute_availability`:
push the gap `(last_end, start)` when `start > last_end`, then set
`last_end` to `end` when `end > last_end`. -/
def sweepStep (st : List (Int × Int) × Int) (p : Int × Int) : List (Int × Int) × Int :=
  (if p.1 > st.2 then st.1 ++ [(st.2, p.1)] else st.1,
   if p.2 > st.2 then p.2 else st.2)

/-- Insert into a list sorted by interval start (helper for
`sortByStart`). -/
def insertByStart (x : Int × Int) : List (Int × Int) → List (Int × Int)
  | [] => [x]
  | q :: rest => if x.1 ≤ q.1 then x :: q :: rest else q :: insertByStart x rest

/-- Model of `sorted_slots.sort_by(|a, b| a.0.cmp(&b.0))`: a stable sort
by the interval start. -/
def sortByStart : List (Int × Int) → List (Int × Int)
  | [] => []
  | x :: rest => insertByStart x (sortByStart rest)

/-- The body of `Room::compute_availability` from `main.rs` as a pure
function of one enumeration of the slot set and the reference timestamp:
sort by start, sweep with a cursor initialised to `current_timestamp`,
and finally push `(last_end, current_timestamp)`. -/
def computeFree (slots : List (Int × Int)) (t : Int) : List (Int × Int) :=
  let st := (sortByStart slots).foldl sweepStep ([], t)
  st.1 ++ [(st.2, t)]

/-- `Room::compute_availability`: recompute the cached `availability`
vector in place. -/
def Room.computeAvailability (r : Room) (t : Int) : Room :=
  { r with availability := computeFree r.slots t }

/-- The catalog `HashMap<String, Room>`, modelled as an association
list. -/
abbrev Catalog := List (String × Room)

/-- `rooms.get(name)` on the catalog map. -/
def findRoom (m : Catalog) (n : String) : Option Room :=
  (m.find? (fun p => p.1 == n)).map (fun p => p.2)

/-- The insertion half of `rooms.entry(name).or_insert_with(|| Room::new(name))`. -/
def insertNewRoom (n : String) (m : Catalog) : Catalog :=
  if (m.find? (fun p => p.1 == n)).isSome then m else m ++ [(n, Room.new n)]

/-- In-place mutation of the room stored under key `n`. -/
def modifyRoom (n : String) (f : Room → Room) (m : Catalog) : Catalog :=
  m.map (fun p => (p.1, if p.1 == n then f p.2 else p.2))

/-- One raw ical event as `process_event` consumes it: `properties[4]`
(the escaped-comma separated room names, `unwrap_or_default`),
`properties[1]` (DTSTART) and `properties[2]` (DTEND), the latter two as
optional raw strings. -/
structure IcalEventM where
  roomsField : String
  startField : Option String
  endField : Option String
deriving DecidableEq, Repr

/-- `value.ok_or(AppError::ParseError)?` followed by
`NaiveDateTime::parse_from_str(...)?`, with the date parser abstracted
as `parseDate` (feed parsing is an external collaborator). -/
def parseTs (parseDate : String → Option Int) (v : Option String) : Option Int :=
  v.bind parseDate

/-- The per-room-name loop of `process_event`.  Mirrors the source
order: the room entry is created first, then the dates are parsed (a
parse failure returns `Err` from the whole function, keeping all
mutations made so far), then the slot is inserted. -/
def processEventNames (parseDate : String → Option Int) (sF eF : Option String) :
    List String → Catalog → Catalog × Bool
  | [], rooms => (rooms, true)
  | n :: rest, rooms =>
    let rooms1 := insertNewRoom n rooms
    match parseTs parseDate sF with
    | none => (rooms1, false)
    | some s0 =>
      match parseTs parseDate eF with
      | none => (rooms1, false)
      | some e0 =>
        processEventNames parseDate sF eF rest
          (modifyRoom n (fun r => { r with slots := insertSlot (s0, e0) r.slots }) rooms1)

/-- Helper for `splitRoomNames`: split a character list at every
backslash-comma occurrence, accumulating the current chunk reversed. -/
def splitEsc : List Char → List Char → List String
  | [], acc => [String.mk acc.reverse]
  | '\\' :: ',' :: rest, acc => String.mk acc.reverse :: splitEsc rest []
  | c :: rest, acc => splitEsc rest (c :: acc)

/-- Model of `property_value.split("\\,")` from `process_event`: split
the room-names field on the two-character sequence backslash-comma. -/
def splitRoomNames (s : String) : List String :=
  splitEsc s.toList []

/-- `process_event` from `main.rs`: split `properties[4]` on the escaped
comma and run the per-name loop.  The `Bool` is `true` for `Ok(())`. -/
def processEvent (parseDate : String → Option Int) (ev : IcalEventM) (rooms : Catalog) :
    Catalog × Bool :=
  processEventNames parseDate ev.startField ev.endField (splitRoomNames ev.roomsField) rooms

/-- The event loop of `process_resource`: `process_event(event, rooms)?`
for each event, stopping at the first failure but keeping all mutations
made up to that point. -/
def processEvents (parseDate : String → Option Int) :
    List IcalEventM → Catalog → Catalog × Bool
  | [], rooms => (rooms, true)
  | ev :: rest, rooms =>
    let res := processEvent parseDate ev rooms
    if res.2 then processEvents parseDate rest res.1 else (res.1, false)

/-- `process_resource` from `main.rs`, with the fetch + ical parse of
the feed abstracted as its outcome: `Except.error` for a transport or
calendar-level parser failure (which occurs before any catalog
mutation), `Except.ok events` for a successfully parsed calendar. -/
def processResource (parseDate : String → Option Int)
    (feed : Except Unit (List IcalEventM)) (rooms : Catalog) : Catalog × Bool :=
  match feed with
  | .error _ => (rooms, false)
  | .ok evs => processEvents parseDate evs rooms

/-- The loop of `update_rooms`: process each resource identifier's feed
in turn; an `Err` is logged and the loop continues with the mutated
state. -/
def updateRooms (parseDate : String → Option Int)
    (feeds : List (Except Unit (List IcalEventM))) (rooms : Catalog) : Catalog :=
  feeds.foldl (fun r f => (processResource parseDate f r).1) rooms

/-- The date window computed at the top of `update_rooms`:
`start_date = today - 2 weeks`, `end_date = start_date + 8 weeks`,
with dates as integer day numbers. -/
def dateWindow (today : Int) : Int × Int :=
  let startDate := today - 7 * START_WEEK_OFFSET
  (startDate, startDate + 7 * END_WEEK_OFFSET)

/-- The loop of `get_all_rooms_info` (`GET /api/all`): for each room
whose name passes the filter and whose cached `availability` vector is
non-empty, recompute the availability at `now` and emit
`(room.name, room.availability)`.  Returns the mutated catalog and the
response mapping. -/
def getAllRoomsInfo (nameFilter : String → Bool) (now : Int) :
    Catalog → Catalog × List (String × List (Int × Int))
  | [] => ([], [])
  | p :: rest =>
    let tail := getAllRoomsInfo nameFilter now rest
    if nameFilter p.2.name && !p.2.availability.isEmpty then
      let r1 := p.2.computeAvailability now
      ((p.1, r1) :: tail.1, (r1.name, r1.availability) :: tail.2)
    else
      (p :: tail.1, tail.2)

/-- The scan loop of `calculate_room_availability`: walk
`room.availability` keeping the `open` flag, and return on the first
interval that brackets or follows `current_timestamp`. -/
def calcLoop (t d8 : Int) : List (Int × Int) → Bool → String × Int × Bool
  | [], _ => ("unavailable", -1, false)
  | (s, e) :: rest, opn =>
    let opn1 := if s ≥ d8 ∧ e ≤ d8 + 86400 then true else opn
    if s ≤ t ∧ t < e then ("available", e - t, opn1)
    else if s > t then ("unavailable", s - t, opn1)
    else calcLoop t d8 rest opn1

/-- `calculate_room_availability` from `main.rs`, with the wall-clock
derived `today_8am` timestamp passed as the parameter `d8`. -/
def calculateRoomAvailability (room : Room) (t d8 : Int) : String × Int × Bool :=
  calcLoop t d8 room.availability false

/-- The per-room body of `get_rooms_availability` (`GET /api/lite`):
`room.compute_availability(current_timestamp)` followed by
`calculate_room_availability(room, current_timestamp)`. -/
def statusAt (room : Room) (t d8 : Int) : String × Int × Bool :=
  calculateRoomAvailability (room.computeAvailability t) t d8

/-- The catalog mutation performed by `get_rooms_availability`: every
room whose key passes the filter gets its availability recomputed. -/
def getRoomsAvailabilityCatalog (nameFilter : String → Bool) (t : Int) (rooms : Catalog) :
    Catalog :=
  rooms.map (fun p => (p.1, if nameFilter p.1 then p.2.computeAvailability t else p.2))

/-- A concrete date-parser instance used only in the closed concrete
theorems: a finite table of date strings.  Date parsing itself is an
external collaborator (`chrono`), so the general theorems quantify over
the parser; any parser exhibiting a success and a failure drives the
concrete inputs. -/
def parseFix (s : String) : Option Int :=
  if s = "s0" then some 0
  else if s = "e10" then some 10
  else if s = "s20" then some 20
  else if s = "e30" then some 30
  else none

/-- Ordering by interval start, the sort key of
`sort_by(|a, b| a.0.cmp(&b.0))`. -/
def startLE (p q : Int × Int) : Prop := p.1 ≤ q.1

theorem insertByStart_perm (x : Int × Int) : ∀ l, (insertByStart x l).Perm (x :: l) := by
  intro l
  induction l with
  | nil => exact List.Perm.refl _
  | cons q rest ih =>
    simp only [insertByStart]
    split
    · exact List.Perm.refl _
    · exact (ih.cons q).trans (List.Perm.swap x q rest)

theorem sortByStart_perm : ∀ l, (sortByStart l).Perm l := by
  intro l
  induction l with
  | nil => exact List.Perm.refl _
  | cons x rest ih => exact (insertByStart_perm x (sortByStart rest)).trans (ih.cons x)

theorem insertByStart_pairwise (x : Int × Int) :
    ∀ l, List.Pairwise startLE l → List.Pairwise startLE (insertByStart x l) := by
  intro l
  induction l with
  | nil => intro _; simp [insertByStart, startLE]
  | cons q rest ih =>
    intro h
    rcases List.pairwise_cons.mp h with ⟨hq, hrest⟩
    simp only [insertByStart]
    split
    · rename_i hle
      refine List.pairwise_cons.mpr ⟨?_, h⟩
      intro y hy
      rcases List.mem_cons.mp hy with rfl | hy
      · exact hle
      · exact le_trans hle (hq y hy)
    · rename_i hnle
      refine List.pairwise_cons.mpr ⟨?_, ih hrest⟩
      intro y hy
      have hy' : y ∈ x :: rest := (insertByStart_perm x rest).mem_iff.mp hy
      rcases List.mem_cons.mp hy' with rfl | hy'
      · exact le_of_not_le hnle
      · exact hq y hy'

theorem sortByStart_sorted : ∀ l, List.Pairwise startLE (sortByStart l) := by
  intro l
  induction l with
  | nil => simp [sortByStart]
  | cons x rest ih => exact insertByStart_pairwise x (sortByStart rest) ih

/-- Two busy intervals sharing the same start commute through the sweep,
provided both are well-formed (`start < end`). -/
theorem sweepStep_tie_comm (st : List (Int × Int) × Int) (p q : Int × Int)
    (hpq : p.1 = q.1) (hp : p.1 < p.2) (hq : q.1 < q.2) :
    sweepStep (sweepStep st p) q = sweepStep (sweepStep st q) p := by
  obtain ⟨acc, cur⟩ := st
  have h2 : (sweepStep (sweepStep (acc, cur) p) q).2 = (sweepStep (sweepStep (acc, cur) q) p).2 := by
    simp only [sweepStep]
    split_ifs <;> omega
  have h1 : (sweepStep (sweepStep (acc, cur) p) q).1 = (sweepStep (sweepStep (acc, cur) q) p).1 := by
    simp only [sweepStep]
    split_ifs <;> first | rfl | (exfalso; omega) | (rw [hpq])
  exact Prod.ext h1 h2

/-- A run of equal-start well-formed intervals can be hopped over by the
sweep without changing the state. -/
theorem foldl_sweep_bubble (a : Int × Int) (ha : a.1 < a.2) :
    ∀ (pfx : List (Int × Int)) (sfx : List (Int × Int)) (st : List (Int × Int) × Int),
      (∀ x ∈ pfx, x.1 = a.1) → (∀ x ∈ pfx, x.1 < x.2) →
      List.foldl sweepStep st (pfx ++ a :: sfx) = List.foldl sweepStep st (a :: (pfx ++ sfx)) := by
  intro pfx
  induction pfx with
  | nil => intro sfx st _ _; rfl
  | cons p pfx ih =>
    intro sfx st heq hwf
    have hp1 : p.1 = a.1 := heq p (List.mem_cons_self p pfx)
    have hp2 : p.1 < p.2 := hwf p (List.mem_cons_self p pfx)
    show List.foldl sweepStep (sweepStep st p) (pfx ++ a :: sfx) = _
    rw [ih sfx (sweepStep st p) (fun x hx => heq x (List.mem_cons_of_mem p hx))
      (fun x hx => hwf x (List.mem_cons_of_mem p hx))]
    show List.foldl sweepStep (sweepStep (sweepStep st p) a) (pfx ++ sfx) =
      List.foldl sweepStep (sweepStep (sweepStep st a) p) (pfx ++ sfx)
    rw [sweepStep_tie_comm st p a hp1 hp2 ha]

/-- The sweep state after consuming a sorted well-formed list depends
only on the underlying multiset, not on the order among equal starts. -/
theorem foldl_sweep_perm :
    ∀ (l1 l2 : List (Int × Int)), l1.Perm l2 →
      List.Pairwise startLE l1 → List.Pairwise startLE l2 →
      (∀ p ∈ l1, p.1 < p.2) →
      ∀ st, l1.foldl sweepStep st = l2.foldl sweepStep st := by
  intro l1
  induction l1 with
  | nil =>
    intro l2 hp _ _ _ st
    rw [← hp.symm.eq_nil]
  | cons a t1 ih =>
    intro l2 hp hs1 hs2 hwf st
    cases l2 with
    | nil => exact absurd hp.eq_nil (by simp)
    | cons c t2 =>
      rcases List.pairwise_cons.mp hs1 with ⟨hhead1, htail1⟩
      by_cases hac : a = c
      · subst hac
        simp only [List.foldl_cons]
        rcases List.pairwise_cons.mp hs2 with ⟨_, htail2⟩
        exact ih t2 hp.cons_inv htail1 htail2
          (fun p hp' => hwf p (List.mem_cons_of_mem a hp')) (sweepStep st a)
      · have haMem : a ∈ c :: t2 := hp.mem_iff.mp (List.mem_cons_self a t1)
        have haT2 : a ∈ t2 := by
          rcases List.mem_cons.mp haMem with h | h
          · exact absurd h hac
          · exact h
        obtain ⟨pfx, sfx, rfl⟩ := List.append_of_mem haT2
        have hcMem : c ∈ a :: t1 := hp.symm.mem_iff.mp (List.mem_cons_self c _)
        have hcT1 : c ∈ t1 := by
          rcases List.mem_cons.mp hcMem with h | h
          · exact absurd h.symm hac
          · exact h
        rcases List.pairwise_cons.mp hs2 with ⟨hhead2, htail2⟩
        have hkey : c.1 = a.1 :=
          le_antisymm (hhead2 a haT2) (hhead1 c hcT1)
        have hcross := (List.pairwise_append.mp htail2).2.2
        have hpfxEq : ∀ x ∈ c :: pfx, x.1 = a.1 := by
          intro x hx
          rcases List.mem_cons.mp hx with rfl | hx
          · exact hkey
          · have hxa : x.1 ≤ a.1 := hcross x hx a (List.mem_cons_self a sfx)
            have hcx : c.1 ≤ x.1 := hhead2 x (List.mem_append_left _ hx)
            omega
        have hwf2 : ∀ x ∈ c :: pfx ++ a :: sfx, x.1 < x.2 :=
          fun x hx => hwf x (hp.symm.mem_iff.mp hx)
        have hwfpfx : ∀ x ∈ c :: pfx, x.1 < x.2 := by
          intro x hx
          apply hwf2
          rcases List.mem_cons.mp hx with rfl | hx
          · exact List.mem_cons_self x _
          · exact List.mem_cons_of_mem c (List.mem_append_left _ hx)
        have ha12 : a.1 < a.2 := hwf a (List.mem_cons_self a t1)
        have hb := foldl_sweep_bubble a ha12 (c :: pfx) sfx st hpfxEq hwfpfx
        have hperm2 : ((c :: pfx) ++ a :: sfx).Perm (a :: ((c :: pfx) ++ sfx)) :=
          List.perm_middle
        have hpt : t1.Perm ((c :: pfx) ++ sfx) := by
          have : (a :: t1).Perm (a :: ((c :: pfx) ++ sfx)) := by
            refine hp.trans ?_
            simpa using hperm2
          exact this.cons_inv
        have hsortedSub : List.Pairwise startLE ((c :: pfx) ++ sfx) := by
          have hsub : List.Sublist ((c :: pfx) ++ sfx) ((c :: pfx) ++ a :: sfx) :=
            List.Sublist.append_left (List.sublist_cons_self a sfx) (c :: pfx)
          exact (show List.Pairwise startLE ((c :: pfx) ++ a :: sfx) by simpa using hs2).sublist hsub
        have hIH := ih ((c :: pfx) ++ sfx) hpt htail1 hsortedSub
          (fun p hp' => hwf p (List.mem_cons_of_mem a hp')) (sweepStep st a)
        calc List.foldl sweepStep st (a :: t1)
            = List.foldl sweepStep (sweepStep st a) t1 := rfl
          _ = List.foldl sweepStep (sweepStep st a) ((c :: pfx) ++ sfx) := hIH
          _ = List.foldl sweepStep st (a :: ((c :: pfx) ++ sfx)) := rfl
          _ = List.foldl sweepStep st ((c :: pfx) ++ a :: sfx) := hb.symm
          _ = List.foldl sweepStep st (c :: (pfx ++ a :: sfx)) := by simp

/-- Claim C8: `computeFree` (the body of `Room::compute_availability`)
is pure and deterministic: for every busy-interval set (modelled as two
enumerations that are permutations of each other, with every interval
well-formed `start < end` as the data model requires, including several
intervals sharing one start) and every reference timestamp, the result
is the same regardless of the iteration order of the underlying
`HashSet`. -/
theorem c8_computeFree_order_independent (l1 l2 : List (Int × Int)) (t : Int)
    (hperm : l1.Perm l2) (hwf : ∀ p ∈ l1, p.1 < p.2) :
    computeFree l1 t = computeFree l2 t := by
  have h1 := sortByStart_perm l1
  have h2 := sortByStart_perm l2
  have hp : (sortByStart l1).Perm (sortByStart l2) := h1.trans (hperm.trans h2.symm)
  have hwf1 : ∀ p ∈ sortByStart l1, p.1 < p.2 := fun p hp' => hwf p (h1.mem_iff.mp hp')
  have heq := foldl_sweep_perm (sortByStart l1) (sortByStart l2) hp
    (sortByStart_sorted l1) (sortByStart_sorted l2) hwf1 ([], t)
  simp only [computeFree]
  rw [heq]

/-- Witness for C8 at a concrete input with two intervals sharing a
start, enumerated in two different orders. -/
theorem c8_computeFree_order_independent_witness :
    (([(0, 5), (0, 7), (2, 9)] : List (Int × Int)).Perm [(0, 7), (2, 9), (0, 5)]) ∧
    (∀ p ∈ ([(0, 5), (0, 7), (2, 9)] : List (Int × Int)), p.1 < p.2) ∧
    computeFree [(0, 5), (0, 7), (2, 9)] 0 = computeFree [(0, 7), (2, 9), (0, 5)] 0 :=
  ⟨by decide, by decide,
    c8_computeFree_order_independent [(0, 5), (0, 7), (2, 9)] [(0, 7), (2, 9), (0, 5)] 0
      (by decide) (by decide)⟩

/-- Room `r'` holds at least all busy slots of room `r`. -/
def slotsSubset (r r' : Room) : Prop := ∀ s ∈ r.slots, s ∈ r'.slots

/-- Catalog `m'` extends catalog `m`: every room present in `m` is still
present in `m'` with at least the same busy slots. -/
def catalogLE (m m' : Catalog) : Prop :=
  ∀ n r, findRoom m n = some r → ∃ r', findRoom m' n = some r' ∧ slotsSubset r r'

theorem catalogLE_refl (m : Catalog) : catalogLE m m :=
  fun _ r h => ⟨r, h, fun _ hs => hs⟩

theorem catalogLE_trans {m1 m2 m3 : Catalog}
    (h12 : catalogLE m1 m2) (h23 : catalogLE m2 m3) : catalogLE m1 m3 := by
  intro n r h
  obtain ⟨r2, h2, hs2⟩ := h12 n r h
  obtain ⟨r3, h3, hs3⟩ := h23 n r2 h2
  exact ⟨r3, h3, fun s hs => hs3 s (hs2 s hs)⟩

theorem findRoom_append (m : Catalog) (x : String × Room) (n : String) (r : Room)
    (h : findRoom m n = some r) : findRoom (m ++ [x]) n = some r := by
  simp only [findRoom] at h ⊢
  obtain ⟨p, hp, hpr⟩ := Option.map_eq_some'.mp h
  rw [List.find?_append, hp]
  simp [hpr]

theorem catalogLE_insertNewRoom (n : String) (m : Catalog) :
    catalogLE m (insertNewRoom n m) := by
  intro n' r h
  unfold insertNewRoom
  split
  · exact ⟨r, h, fun _ hs => hs⟩
  · exact ⟨r, findRoom_append m _ n' r h, fun _ hs => hs⟩

theorem findRoom_mapVal (g : String → Room → Room) (m : Catalog) (n : String) :
    findRoom (m.map (fun p => (p.1, g p.1 p.2))) n = (findRoom m n).map (g n) := by
  induction m with
  | nil => rfl
  | cons p rest ih =>
    cases hb : (p.1 == n) with
    | true =>
      have : p.1 = n := by simpa using hb
      subst this
      simp [findRoom, List.find?_cons, hb]
    | false =>
      simp only [findRoom, List.map_cons, List.find?_cons, hb] at ih ⊢
      exact ih

theorem catalogLE_mapVal (g : String → Room → Room)
    (hg : ∀ k r, slotsSubset r (g k r)) (m : Catalog) :
    catalogLE m (m.map (fun p => (p.1, g p.1 p.2))) := by
  intro n r h
  refine ⟨g n r, ?_, hg n r⟩
  rw [findRoom_mapVal, h]
  rfl

theorem catalogLE_modifyRoom (n : String) (f : Room → Room) (m : Catalog)
    (hf : ∀ r, slotsSubset r (f r)) : catalogLE m (modifyRoom n f m) :=
  catalogLE_mapVal (fun k r => if k == n then f r else r)
    (fun _ r s hs => by dsimp only; split; exacts [hf r s hs, hs]) m

theorem slotsSubset_insertSlot (v : Int × Int) (r : Room) :
    slotsSubset r { r with slots := insertSlot v r.slots } := by
  intro s hs
  simp only [insertSlot]
  split
  · exact hs
  · exact List.mem_append_left _ hs

theorem processEventNames_mono (pd : String → Option Int) (sF eF : Option String) :
    ∀ (names : List String) (m : Catalog),
      catalogLE m (processEventNames pd sF eF names m).1 := by
  intro names
  induction names with
  | nil => intro m; exact catalogLE_refl m
  | cons n rest ih =>
    intro m
    have h1 : catalogLE m (insertNewRoom n m) := catalogLE_insertNewRoom n m
    simp only [processEventNames]
    cases hs : parseTs pd sF with
    | none => exact h1
    | some s0 =>
      cases he : parseTs pd eF with
      | none => exact h1
      | some e0 =>
        refine catalogLE_trans (catalogLE_trans h1 ?_) (ih _)
        exact catalogLE_modifyRoom n _ _ (fun r => slotsSubset_insertSlot (s0, e0) r)

theorem processEvent_mono (pd : String → Option Int) (ev : IcalEventM) (m : Catalog) :
    catalogLE m (processEvent pd ev m).1 :=
  processEventNames_mono pd ev.startField ev.endField (splitRoomNames ev.roomsField) m

theorem processEvents_mono (pd : String → Option Int) :
    ∀ (evs : List IcalEventM) (m : Catalog), catalogLE m (processEvents pd evs m).1 := by
  intro evs
  induction evs with
  | nil => intro m; exact catalogLE_refl m
  | cons ev rest ih =>
    intro m
    simp only [processEvents]
    split
    · exact catalogLE_trans (processEvent_mono pd ev m) (ih _)
    · exact processEvent_mono pd ev m

theorem processResource_mono (pd : String → Option Int)
    (feed : Except Unit (List IcalEventM)) (m : Catalog) :
    catalogLE m (processResource pd feed m).1 := by
  cases feed with
  | error e => exact catalogLE_refl m
  | ok evs => exact processEvents_mono pd evs m

theorem updateRooms_mono (pd : String → Option Int) :
    ∀ (feeds : List (Except Unit (List IcalEventM))) (m : Catalog),
      catalogLE m (updateRooms pd feeds m) := by
  intro feeds
  induction feeds with
  | nil => intro m; exact catalogLE_refl m
  | cons f fs ih =>
    intro m
    exact catalogLE_trans (processResource_mono pd f m) (ih _)

theorem getAllRoomsInfo_catalog_eq (nf : String → Bool) (now : Int) :
    ∀ m : Catalog, (getAllRoomsInfo nf now m).1 =
      m.map (fun p =>
        (p.1, if nf p.2.name && !p.2.availability.isEmpty
              then p.2.computeAvailability now else p.2)) := by
  intro m
  induction m with
  | nil => rfl
  | cons p rest ih =>
    simp only [getAllRoomsInfo, List.map_cons]
    split
    · rename_i h; simp [h, ih]
    · rename_i h; simp [h, ih]

theorem getAllRoomsInfo_catalog_mono (nf : String → Bool) (now : Int) (m : Catalog) :
    catalogLE m (getAllRoomsInfo nf now m).1 := by
  rw [getAllRoomsInfo_catalog_eq]
  exact catalogLE_mapVal
    (fun _ r => if nf r.name && !r.availability.isEmpty then r.computeAvailability now else r)
    (fun _ r s hs => by dsimp only; split; exacts [hs, hs]) m

theorem getRoomsAvailabilityCatalog_mono (nf : String → Bool) (t : Int) (m : Catalog) :
    catalogLE m (getRoomsAvailabilityCatalog nf t m) :=
  catalogLE_mapVal (fun k r => if nf k then r.computeAvailability t else r)
    (fun _ r s hs => by dsimp only; split; exacts [hs, hs]) m

/-- Claim C9: the busy slot set of every room is monotonically
non-decreasing across the process lifetime.  Event processing only
inserts slots, and no operation -- a refresh pass (`update_rooms` /
`process_resource` / `process_event`, including every error path), the
`/api/all` query or the `/api/lite` query -- ever removes a slot from a
room or removes a room from the catalog. -/
theorem c9_slots_monotone :
    (∀ (pd : String → Option Int) (ev : IcalEventM) (m : Catalog),
        catalogLE m (processEvent pd ev m).1) ∧
    (∀ (pd : String → Option Int) (feed : Except Unit (List IcalEventM)) (m : Catalog),
        catalogLE m (processResource pd feed m).1) ∧
    (∀ (pd : String → Option Int) (feeds : List (Except Unit (List IcalEventM))) (m : Catalog),
        catalogLE m (updateRooms pd feeds m)) ∧
    (∀ (nf : String → Bool) (now : Int) (m : Catalog),
        catalogLE m (getAllRoomsInfo nf now m).1) ∧
    (∀ (nf : String → Bool) (t : Int) (m : Catalog),
        catalogLE m (getRoomsAvailabilityCatalog nf t m)) :=
  ⟨processEvent_mono, processResource_mono, updateRooms_mono,
    getAllRoomsInfo_catalog_mono, getRoomsAvailabilityCatalog_mono⟩

/-- Witness for C9: a full refresh pass over a concrete catalog only
extends it. -/
theorem c9_slots_monotone_witness :
    catalogLE [("A", Room.new "A")]
      (updateRooms parseFix [Except.ok [⟨"A", some "s20", some "e30"⟩]]
        [("A", Room.new "A")]) :=
  c9_slots_monotone.2.2.1 parseFix [Except.ok [⟨"A", some "s20", some "e30"⟩]]
    [("A", Room.new "A")]

/-- The cursor update of the sweep in isolation: `if end > last_end
then end else last_end`. -/
def mxEnd (cur : Int) (p : Int × Int) : Int :=
  if p.2 > cur then p.2 else cur

theorem mxEnd_eq_max (cur : Int) (p : Int × Int) : mxEnd cur p = max cur p.2 := by
  unfold mxEnd
  split <;> omega

theorem foldl_sweep_snd :
    ∀ (l : List (Int × Int)) (acc : List (Int × Int)) (cur : Int),
      (l.foldl sweepStep (acc, cur)).2 = l.foldl mxEnd cur := by
  intro l
  induction l with
  | nil => intro acc cur; rfl
  | cons p rest ih =>
    intro acc cur
    simp only [List.foldl_cons, sweepStep]
    exact ih _ _

theorem foldl_mxEnd_perm {l1 l2 : List (Int × Int)} (h : l1.Perm l2) :
    ∀ cur, l1.foldl mxEnd cur = l2.foldl mxEnd cur := by
  induction h with
  | nil => intro _; rfl
  | cons x _ ih => intro cur; simp only [List.foldl_cons]; exact ih _
  | swap x y l =>
    intro cur
    simp only [List.foldl_cons]
    have : mxEnd (mxEnd cur y) x = mxEnd (mxEnd cur x) y := by
      simp only [mxEnd]; split_ifs <;> omega
    rw [this]
  | trans _ _ ih1 ih2 => intro cur; exact (ih1 cur).trans (ih2 cur)

theorem foldl_mxEnd_ge_init : ∀ (l : List (Int × Int)) (cur : Int),
    cur ≤ l.foldl mxEnd cur := by
  intro l
  induction l with
  | nil => intro cur; exact le_refl cur
  | cons p rest ih =>
    intro cur
    have h1 : cur ≤ mxEnd cur p := by simp only [mxEnd]; split <;> omega
    exact le_trans h1 (ih (mxEnd cur p))

theorem foldl_mxEnd_ge_mem : ∀ (l : List (Int × Int)) (cur : Int) (p : Int × Int),
    p ∈ l → p.2 ≤ l.foldl mxEnd cur := by
  intro l
  induction l with
  | nil => intro _ _ h; cases h
  | cons q rest ih =>
    intro cur p hp
    rcases List.mem_cons.mp hp with rfl | hp
    · have h1 : p.2 ≤ mxEnd cur p := by simp only [mxEnd]; split <;> omega
      exact le_trans h1 (foldl_mxEnd_ge_init rest (mxEnd cur p))
    · exact ih (mxEnd cur q) p hp

theorem computeFree_getLast (l : List (Int × Int)) (t : Int) :
    (computeFree l t).getLast? = some (l.foldl mxEnd t, t) := by
  simp only [computeFree]
  rw [List.getLast?_concat]
  rw [foldl_sweep_snd, foldl_mxEnd_perm (sortByStart_perm l)]

/-- Membership of the recomputed room in the `/api/all` response, for a
matching room with a non-empty cached availability. -/
theorem getAllRoomsInfo_result_mem (nf : String → Bool) (now : Int) :
    ∀ (m : Catalog) (k : String) (r : Room),
      (k, r) ∈ m → nf r.name = true → r.availability ≠ [] →
      (r.name, computeFree r.slots now) ∈ (getAllRoomsInfo nf now m).2 := by
  intro m
  induction m with
  | nil => intro k r h; cases h
  | cons p rest ih =>
    intro k r hmem hnf hav
    rcases List.mem_cons.mp hmem with heq | hmem
    · have hpr : p.2 = r := congrArg Prod.snd heq.symm
      have hcond : (nf p.2.name && !p.2.availability.isEmpty) = true := by
        rw [hpr]
        simp [hnf, hav]
      simp only [getAllRoomsInfo, hcond, if_true]
      rw [hpr]
      exact List.mem_cons.mpr (Or.inl rfl)
    · simp only [getAllRoomsInfo]
      split
      · exact List.mem_cons_of_mem _ (ih k r hmem hnf hav)
      · exact ih k r hmem hnf hav

/-- Claim C10: for every slot set and reference timestamp, the
availability list produced by `compute_availability` is non-empty and
ends with `(max(referenceTimestamp, maximum slot end), referenceTimestamp)`;
whenever some busy interval ends after the reference timestamp this final
element is an inverted interval (start strictly greater than end), and the
recomputed availability list -- final element included -- is what the
`/api/all` query exposes for a matching room with previously-computed
availability. -/
theorem c10_final_interval :
    ∀ (l : List (Int × Int)) (t : Int),
      computeFree l t ≠ [] ∧
      (computeFree l t).getLast? = some (l.foldl (fun a p => max a p.2) t, t) ∧
      (∀ p ∈ l, t < p.2 → ∃ q, (computeFree l t).getLast? = some q ∧ q.2 < q.1) ∧
      (∀ (nf : String → Bool) (now : Int) (m : Catalog) (k : String) (r : Room),
        (k, r) ∈ m → nf r.name = true → r.availability ≠ [] →
        (r.name, computeFree r.slots now) ∈ (getAllRoomsInfo nf now m).2) := by
  intro l t
  have hmx : l.foldl mxEnd t = l.foldl (fun a p => max a p.2) t := by
    have : ∀ (l' : List (Int × Int)) (cur : Int),
        l'.foldl mxEnd cur = l'.foldl (fun a p => max a p.2) cur := by
      intro l'
      induction l' with
      | nil => intro _; rfl
      | cons p rest ih =>
        intro cur
        simp only [List.foldl_cons, mxEnd_eq_max]
        exact ih _
    exact this l t
  refine ⟨?_, ?_, ?_, getAllRoomsInfo_result_mem⟩
  · simp only [computeFree]
    exact List.append_ne_nil_of_right_ne_nil _ (by simp)
  · rw [computeFree_getLast, hmx]
  · intro p hp hlt
    refine ⟨(l.foldl mxEnd t, t), computeFree_getLast l t, ?_⟩
    have := foldl_mxEnd_ge_mem l t p hp
    simp only
    omega

/-- Witness for C10: a concrete room with a slot ending after the
reference timestamp yields an inverted final interval, exposed through
the `/api/all` response. -/
theorem c10_final_interval_witness :
    (((0 : Int), (10 : Int)) ∈ ([(0, 10)] : List (Int × Int)) ∧ (3 : Int) < 10 ∧
      (∃ q, (computeFree [(0, 10)] 3).getLast? = some q ∧ q.2 < q.1)) ∧
    ((("R", ({ name := "R", slots := [(0, 10)], availability := [(9, 9)] } : Room)) ∈
        ([("R", ⟨"R", [(0, 10)], [(9, 9)]⟩)] : Catalog)) ∧
      ("R", computeFree [(0, 10)] 3) ∈
        (getAllRoomsInfo (fun _ => true) 3 [("R", ⟨"R", [(0, 10)], [(9, 9)]⟩)]).2) :=
  ⟨⟨by decide, by decide,
      (c10_final_interval [(0, 10)] 3).2.2.1 (0, 10) (by decide) (by decide)⟩,
    ⟨by decide,
      (c10_final_interval [(0, 10)] 3).2.2.2 (fun _ => true) 3
        [("R", ⟨"R", [(0, 10)], [(9, 9)]⟩)] "R" ⟨"R", [(0, 10)], [(9, 9)]⟩
        (by decide) rfl (by decide)⟩⟩

/-- Claim C1 (code_bug evaluation): a refresh pass does NOT replace a
resource's busy set.  A room holding the stale slot `(0,10)` from pass N
is fed a pass-N+1 calendar containing only the event `(20,30)`; the
ingestion succeeds, yet afterwards the room's slot set still contains
`(0,10)` -- `process_event` only ever inserts into `slots` and nothing
ever clears it. -/
theorem c1_stale_interval_persists :
    (processResource parseFix (Except.ok [⟨"A", some "s20", some "e30"⟩])
        [("A", { name := "A", slots := [(0, 10)], availability := [] })]).2 = true ∧
    findRoom (processResource parseFix (Except.ok [⟨"A", some "s20", some "e30"⟩])
        [("A", { name := "A", slots := [(0, 10)], availability := [] })]).1 "A" =
      some { name := "A", slots := [(0, 10), (20, 30)], availability := [] } := by
  constructor <;> decide

/-- Claim C2 (code_bug evaluation): `compute_availability` appends
`(last_end, current_timestamp)` as its final element -- there is no
caller-supplied horizon anywhere in the code.  For the empty busy set
with reference `0` the result is `[(0, 0)]`, not the `[(0, 50)]` the
claim requires for horizon `50`. -/
theorem c2_no_horizon_final_interval :
    computeFree [] 0 = [(0, 0)] ∧ computeFree [] 0 ≠ [(0, 50)] := by
  constructor <;> decide

/-- Claim C4 (code_bug evaluation): the output of `compute_availability`
does not cover `[referenceTimestamp, horizonTimestamp)` for any horizon.
On the spec's own test vector busy `{(0,10),(5,15)}`, reference `0`,
horizon `20`, the code returns `[(15, 0)]` (an inverted final interval)
instead of `[(15, 20)]`, and for the empty busy set with reference `0`
the point `7` of `[0, 50)` is covered by no free interval and no busy
interval. -/
theorem c4_no_horizon_coverage :
    computeFree [(0, 10), (5, 15)] 0 = [(15, 0)] ∧
    (15, 20) ∉ computeFree [(0, 10), (5, 15)] 0 ∧
    (∀ p ∈ computeFree [] 0, ¬(p.1 ≤ 7 ∧ 7 < p.2)) := by
  refine ⟨by decide, by decide, by decide⟩

/-- Claim C3 counterexample: for busy `{(100,200)}` at reference `150`
(inside the busy interval) the code returns status "unavailable" with
duration `50`, not the "available" the claim states --
`calculate_room_availability` scans `room.availability` (the computed
free intervals), not the busy intervals. -/
theorem c3_counterexample :
    statusAt { name := "R", slots := [(100, 200)], availability := [] } 150 0 =
      ("unavailable", 50, true) ∧
    ("unavailable" : String) ≠ "available" := by
  constructor <;> decide

theorem calcLoop_status : ∀ (l : List (Int × Int)) (opn : Bool) (t d8 : Int),
    (calcLoop t d8 l opn).1 = "available" ∨ (calcLoop t d8 l opn).1 = "unavailable" := by
  intro l
  induction l with
  | nil => intro _ _ _; right; rfl
  | cons p rest ih =>
    intro opn t d8
    obtain ⟨s, e⟩ := p
    simp only [calcLoop]
    by_cases h1 : s ≤ t ∧ t < e
    · simp only [if_pos h1]; left; trivial
    · simp only [if_neg h1]
      by_cases h2 : s > t
      · simp only [if_pos h2]; right; trivial
      · simp only [if_neg h2]; exact ih _ t d8

theorem calcLoop_available_mem : ∀ (l : List (Int × Int)) (opn : Bool) (t d8 : Int),
    (calcLoop t d8 l opn).1 = "available" → ∃ p ∈ l, p.1 ≤ t ∧ t < p.2 := by
  have hne : ("unavailable" : String) ≠ "available" := by decide
  intro l
  induction l with
  | nil => intro _ _ _ h; exact absurd h hne
  | cons p rest ih =>
    intro opn t d8
    obtain ⟨s, e⟩ := p
    simp only [calcLoop]
    by_cases h1 : s ≤ t ∧ t < e
    · simp only [if_pos h1]
      intro _
      exact ⟨(s, e), List.mem_cons_self _ _, h1.1, h1.2⟩
    · simp only [if_neg h1]
      by_cases h2 : s > t
      · simp only [if_pos h2]
        intro h
        exact absurd h hne
      · simp only [if_neg h2]
        intro h
        obtain ⟨q, hq, hcond⟩ := ih _ t d8 h
        exact ⟨q, List.mem_cons_of_mem _ hq, hcond⟩

/-- Claim C3 amended: the `/api/lite` status scan walks the COMPUTED
FREE intervals (`room.availability` after `compute_availability`), not
the busy intervals: status "available" is returned exactly from a free
interval bracketing the reference (duration = free end − reference,
i.e. time until the next busy start), "unavailable" from the first free
interval starting later (duration = its start − reference), and
`("unavailable", -1)` when the scan is exhausted.  In particular, busy
`{(100,200)}`: reference `150` → `("unavailable", 50)`, reference `50`
→ `("available", 50)`, reference `250` → `("unavailable", -1)`. -/
theorem c3_status_scans_free_intervals :
    (∀ (room : Room) (t d8 : Int),
      (statusAt room t d8).1 = "available" ∨ (statusAt room t d8).1 = "unavailable") ∧
    (∀ (room : Room) (t d8 : Int),
      (statusAt room t d8).1 = "available" →
        ∃ p ∈ computeFree room.slots t, p.1 ≤ t ∧ t < p.2) ∧
    statusAt { name := "R", slots := [(100, 200)], availability := [] } 150 0 =
      ("unavailable", 50, true) ∧
    statusAt { name := "R", slots := [(100, 200)], availability := [] } 50 0 =
      ("available", 50, true) ∧
    statusAt { name := "R", slots := [(100, 200)], availability := [] } 250 0 =
      ("unavailable", -1, false) :=
  ⟨fun room t d8 => calcLoop_status (computeFree room.slots t) false t d8,
    fun room t d8 h => calcLoop_available_mem (computeFree room.slots t) false t d8 h,
    by decide, by decide, by decide⟩

/-- Witness for the amended C3 at a concrete input with an "available"
status. -/
theorem c3_status_scans_free_intervals_witness :
    (statusAt { name := "R", slots := [(100, 200)], availability := [] } 50 0).1 =
      "available" ∧
    ∃ p ∈ computeFree [(100, 200)] 50, p.1 ≤ 50 ∧ 50 < p.2 :=
  ⟨by decide,
    c3_status_scans_free_intervals.2.1
      { name := "R", slots := [(100, 200)], availability := [] } 50 0 (by decide)⟩

/-- Claim C5 counterexample: a feed whose first event parses and whose
second event has an unparsable date makes `process_resource` return an
error, yet the catalog was already mutated: the first event's slot
`(0,10)` is inserted under room "A" and an empty room "B" was created
before the failing parse.  State is not unchanged on this error path. -/
theorem c5_counterexample :
    processResource parseFix
        (Except.ok [⟨"A", some "s0", some "e10"⟩, ⟨"B", some "x", some "e10"⟩]) [] =
      ([("A", { name := "A", slots := [(0, 10)], availability := [] }),
        ("B", { name := "B", slots := [], availability := [] })], false) ∧
    ([("A", { name := "A", slots := [(0, 10)], availability := [] }),
      ("B", { name := "B", slots := [], availability := [] })] : Catalog) ≠ [] := by
  constructor <;> decide

/-- Claim C5 amended: a transport or calendar-level parse failure leaves
the catalog exactly unchanged and the pass continues to the next
resource identifier; but an event-level date-parse failure aborts that
identifier's feed midway, with slots inserted by earlier events of the
same feed (and room entries created before the failing parse) kept --
so for that error path a partial update is observable. -/
theorem c5_failure_isolation :
    (∀ (pd : String → Option Int) (m : Catalog),
      processResource pd (Except.error ()) m = (m, false)) ∧
    (∀ (pd : String → Option Int) (fs1 fs2 : List (Except Unit (List IcalEventM)))
        (m : Catalog),
      updateRooms pd (fs1 ++ Except.error () :: fs2) m =
        updateRooms pd fs2 (updateRooms pd fs1 m)) ∧
    (∀ (pd : String → Option Int) (ev : IcalEventM) (rest : List IcalEventM) (m : Catalog),
      (processEvent pd ev m).2 = false →
      processEvents pd (ev :: rest) m = ((processEvent pd ev m).1, false)) := by
  refine ⟨fun _ _ => rfl, ?_, ?_⟩
  · intro pd fs1 fs2 m
    simp only [updateRooms, List.foldl_append, List.foldl_cons, processResource]
  · intro pd ev rest m h
    simp only [processEvents, h]
    simp

/-- Witness for the amended C5 at a concrete failing event. -/
theorem c5_failure_isolation_witness :
    (processEvent parseFix ⟨"B", some "x", some "e10"⟩ []).2 = false ∧
    processEvents parseFix [⟨"B", some "x", some "e10"⟩] [] =
      ((processEvent parseFix ⟨"B", some "x", some "e10"⟩ []).1, false) :=
  ⟨by decide,
    c5_failure_isolation.2.2 parseFix ⟨"B", some "x", some "e10"⟩ [] [] (by decide)⟩

/-- Claim C6 counterexample: with today = day 0, the window computed by
`update_rooms` is `(-14, 42)` in days -- the end date is
`start_date + 8 weeks = today + 6 weeks`, not the `today + 8 weeks`
(day 56) the claim states. -/
theorem c6_counterexample :
    dateWindow 0 = (-14, 42) ∧ (dateWindow 0).2 ≠ 0 + 7 * 8 := by
  constructor <;> decide

/-- Claim C6 amended: for every refresh pass the window is
`startDate = today - 2 weeks` and `endDate = startDate + 8 weeks`,
i.e. `endDate = today + 6 weeks`. -/
theorem c6_date_window :
    ∀ today : Int, dateWindow today = (today - 7 * 2, today + 7 * 6) := by
  intro today
  simp only [dateWindow, START_WEEK_OFFSET, END_WEEK_OFFSET, Prod.mk.injEq]
  exact ⟨trivial, by ring⟩

/-- Claim C7 counterexample: `/api/all` filters on the cached
`availability` vector, not on the busy set.  A matching room with a
non-empty busy set but never-computed availability is excluded from the
response, while a matching room with an EMPTY busy set but
previously-computed availability is included. -/
theorem c7_counterexample :
    ({ name := "V-A 1", slots := [(0, 10)], availability := [] } : Room).slots ≠ [] ∧
    (getAllRoomsInfo (fun _ => true) 1000
      [("V-A 1", { name := "V-A 1", slots := [(0, 10)], availability := [] })]).2 = [] ∧
    ({ name := "V-A 2", slots := [], availability := [(5, 5)] } : Room).slots = [] ∧
    (getAllRoomsInfo (fun _ => true) 1000
      [("V-A 2", { name := "V-A 2", slots := [], availability := [(5, 5)] })]).2 =
      [("V-A 2", [(1000, 1000)])] := by
  refine ⟨by decide, by decide, by decide, by decide⟩

/-- Claim C7 amended: `listAllFree` returns exactly the resources whose
name matches the filter and whose CACHED `availability` vector is
non-empty (i.e. whose availability has been computed at least once by a
previous query); the busy set plays no role in the inclusion test, and
each included resource is reported with its availability recomputed at
the current time. -/
theorem c7_filter_on_cached_availability :
    ∀ (nf : String → Bool) (now : Int) (m : Catalog),
      (getAllRoomsInfo nf now m).2 =
        (m.filter (fun p => nf p.2.name && !p.2.availability.isEmpty)).map
          (fun p => (p.2.name, computeFree p.2.slots now)) := by
  intro nf now m
  induction m with
  | nil => rfl
  | cons p rest ih =>
    simp only [getAllRoomsInfo, List.filter_cons]
    split
    · rename_i h; simp [h, ih, Room.computeAvailability]
    · rename_i h; simp [h, ih]

end FreeRoom
